import Mathlib

/-
  Shallow embedding of the typed memory-view subsystem of
  `packages/api/src/memory/views.rs` (the `memory_view!` macro and its
  `__len__`, `__getitem__`, `__setitem__` implementations).

  The Rust code is generic over the element type (`u8`, `i8`, ..., `f32`,
  `f64`); the embedding mirrors this with a type parameter `α` together
  with an `ElemSpec α` describing how Python values convert to elements
  (the `extract::<T>` / `cast_as::<PyInt>` behavior).  The shared linear
  memory is a `List α`; `raw_element_count` is its length.  `usize`
  arithmetic follows release-mode Rust: additions and subtractions wrap
  modulo `2 ^ 64`, and an `isize → usize` cast reinterprets modulo
  `2 ^ 64`.  Rust panics (out-of-range slice indexing, `view[i]` with
  `i` past the end) are modelled as explicit `panic...` error values.
-/

deriving instance DecidableEq for Except

namespace MemoryViews

/-- Size of the usize value space on a 64-bit target. -/
def USIZE : Nat := 2 ^ 64

/-- Release-mode wrapping of a usize computation. -/
def wrap (n : Nat) : Nat := n % USIZE

/-- The Rust `as usize` cast of an `isize` value (two's-complement
reinterpretation). -/
def castUsize (x : Int) : Nat := (x % (USIZE : Int)).toNat

/-- Release-mode `e - 1` on usize (wraps when `e = 0`); used for the
`range.end - 1` expression in `__getitem__`. `e` is assumed `< USIZE`. -/
def usub1 (e : Nat) : Nat := if e = 0 then USIZE - 1 else e - 1

/-- Release-mode usize subtraction `a - b` (wrapping); both arguments are
assumed `< USIZE`. -/
def usubW (a b : Nat) : Nat := (a + USIZE - b) % USIZE

/-- A Python value, as far as the view code inspects one: an `int`, a
`float` (payload abstracted to a tag, since the code never computes with
it), or a sequence realized as a list. -/
inductive PyVal where
  | int : Int → PyVal
  | float : Nat → PyVal
  | list : List PyVal → PyVal

/-- The `index` argument of `__getitem__` / `__setitem__`: either a slice
object (`start`, `stop`, optional `step`) or an arbitrary Python value. -/
inductive PyIndex where
  | val : PyVal → PyIndex
  | slice : Int → Int → Option Int → PyIndex

/-- The errors (Python exceptions and Rust panics) the view code can
produce. -/
inductive ViewErr where
  /-- IndexError: Out of bound: Index cannot be negative. -/
  | negativeIndex
  /-- IndexError: Out of bound: Maximum index N is larger than the memory
  size M (the `__getitem__` bounds check). -/
  | outOfBound (maxIndex memSize : Nat)
  /-- IndexError: Out of bound: Absolute index N is larger than the memory
  size M (the single-index `__setitem__` bounds check). -/
  | outOfBoundSet (absIndex memSize : Nat)
  /-- IndexError: Slice S:E cannot be empty. -/
  | emptySlice (start stop : Int)
  /-- IndexError: Slice must have a step of 1 for now (read path). -/
  | unsupportedStep (step : Int)
  /-- IndexError: Slice must have a positive step (write path). -/
  | nonPositiveStep (step : Int)
  /-- IndexError: the given key slice will write out of memory. -/
  | sliceOverflow (memLen offset sliceLen : Nat)
  /-- ValueError raised by `PySlice::indices` when the step is zero. -/
  | zeroStep
  /-- ValueError: Only integers and slices are valid to represent an
  index. -/
  | invalidSelector
  /-- RuntimeError: the generic `__setitem__` shape error. -/
  | shapeError
  /-- TypeError / OverflowError from `value.extract::<T>()` inside the
  slice-write loop. -/
  | typeMismatch
  /-- Rust panic: `view[idx]` with `idx` out of range. -/
  | panicIndex (idx len : Nat)
  /-- Rust panic: `view[start..stop]` with an invalid range. -/
  | panicRange (start stop len : Nat)
  /-- Rust panic: `view[offset..]` with `offset` past the end. -/
  | panicSliceStart (start len : Nat)
deriving DecidableEq

/-- Result of `__getitem__`: a slice of length 1 is returned as a bare
scalar, anything longer as a list. -/
inductive GetResult (α : Type) where
  | one : α → GetResult α
  | many : List α → GetResult α
deriving DecidableEq

/-- Conversion behavior of one element type: `ofInt` is `extract::<T>`
applied to a Python `int` (`none` = OverflowError/TypeError), `ofFloat`
is `extract::<T>` applied to a Python `float`. -/
structure ElemSpec (α : Type) where
  ofInt : Int → Option α
  ofFloat : Nat → Option α

/-- `value.extract::<T>()` on a Python value (slice-write loop). -/
def ElemSpec.extract (s : ElemSpec α) : PyVal → Option α
  | .int n => s.ofInt n
  | .float t => s.ofFloat t
  | .list _ => none

/-- `value.cast_as::<PyInt>().and_then(extract::<T>)` (single-index write
path): only Python `int` objects pass the cast. -/
def ElemSpec.extractPyInt (s : ElemSpec α) : PyVal → Option α
  | .int n => s.ofInt n
  | _ => none

/-- `index.extract::<isize>()` / `cast_as::<PyLong>` + `extract::<isize>`:
a Python `int` within the `isize` range. -/
def extractIsize : PyVal → Option Int
  | .int n => if -(2 ^ 63) ≤ n ∧ n < 2 ^ 63 then some n else none
  | _ => none

/-- `value.cast_as::<PySequence>().and_then(|s| s.list())`: only list-like
values succeed. -/
def asSequenceList : PyVal → Option (List PyVal)
  | .list xs => some xs
  | _ => none

/-- Largest `Py_ssize_t` value (64-bit target). -/
def ISIZE_MAX : Int := 2 ^ 63 - 1

/-- Smallest `Py_ssize_t` value (64-bit target). -/
def ISIZE_MIN : Int := -(2 ^ 63)

/-- `PySlice_Unpack` silently clamps slice start/stop to the
`Py_ssize_t` range. -/
def clampIdx (x : Int) : Int := max ISIZE_MIN (min x ISIZE_MAX)

/-- `PySlice_Unpack` clamps the step to `[-ISIZE_MAX, ISIZE_MAX]`. -/
def clampStep (x : Int) : Int := max (-ISIZE_MAX) (min x ISIZE_MAX)

/-- `PySlice_AdjustIndices` on one endpoint: negative values count from
the end, out-of-range values are clamped (differently for negative
steps). -/
def adjustIndex (L step x : Int) : Int :=
  if x < 0 then
    (if x + L < 0 then (if step < 0 then -1 else 0) else x + L)
  else if x ≥ L then (if step < 0 then L - 1 else L)
  else x

/-- `PySlice::indices(length)` (CPython `PySlice_Unpack` followed by
`PySlice_AdjustIndices`): rejects a zero step, then normalizes both
endpoints against `length`. -/
def sliceIndices (start stop : Int) (step? : Option Int) (length : Nat) :
    Except ViewErr (Int × Int × Int) :=
  let step0 := step?.getD 1
  if step0 = 0 then .error .zeroStep
  else
    let step := clampStep step0
    let L : Int := (length : Int)
    .ok (adjustIndex L step (clampIdx start), adjustIndex L step (clampIdx stop), step)

/-- The `__len__` method: `view[offset..].len()`.  Rust slicing
`[offset..]` panics when `offset` exceeds the slice length. -/
def __len__ (buf : List α) (off : Nat) : Except ViewErr Nat :=
  if off ≤ buf.length then .ok (buf.length - off) else .error (.panicSliceStart off buf.length)

/-- Range resolution of `__getitem__`: produces the absolute half-open
range `(start, end)` read from the raw buffer, or an error. -/
def resolveIndexGet (len off : Nat) (index : PyIndex) : Except ViewErr (Nat × Nat) :=
  match index with
  | .slice a b st =>
    match sliceIndices a b st len with
    | .error e => .error e
    | .ok (start, stop, step) =>
      if start ≥ stop then .error (.emptySlice start stop)
      else if step > 1 then .error (.unsupportedStep step)
      else .ok (wrap (off + castUsize start), min (wrap (off + castUsize stop)) len)
  | .val v =>
    match extractIsize v with
    | some i =>
      if i < 0 then .error .negativeIndex
      else
        let idx := wrap (off + castUsize i)
        .ok (idx, wrap (idx + 1))
    | none => .error .invalidSelector

/-- The `__getitem__` method over a raw buffer `buf` and view offset
`off`. -/
def __getitem__ (buf : List α) (off : Nat) (index : PyIndex) :
    Except ViewErr (GetResult α) :=
  match resolveIndexGet buf.length off index with
  | .error e => .error e
  | .ok (rs, re) =>
    if buf.length ≤ usub1 re then .error (.outOfBound (usub1 re) buf.length)
    else if usubW re rs = 1 then
      match buf[rs]? with
      | some x => .ok (.one x)
      | none => .error (.panicIndex rs buf.length)
    else if rs ≤ re ∧ re ≤ buf.length then .ok (.many ((buf.drop rs).take (re - rs)))
    else .error (.panicRange rs re buf.length)

/-- `Range { start, end }.step_by(step)` collected to a list (the write
iterator); its length is the Rust `iterator.len()`. -/
def rangeStepBy (start stop step : Int) : List Int :=
  if 0 < step ∧ start < stop then
    (List.range ((stop - start - 1).toNat / step.toNat + 1)).map
      (fun k : Nat => start + step * (k : Int))
  else []

/-- The slice-write loop of `__setitem__`: converts each supplied value,
then stores it at `offset + index`; conversion failures abort with the
already-written prefix kept (torn write), and an out-of-range store is a
Rust panic. -/
def writeLoop (spec : ElemSpec α) (off : Nat) :
    List α → List Int → List PyVal → List α × Except ViewErr Unit
  | buf, [], _ => (buf, .ok ())
  | buf, _ :: _, [] => (buf, .ok ())
  | buf, i :: is, v :: vs =>
    match spec.extract v with
    | none => (buf, .error .typeMismatch)
    | some x =>
      let pos := wrap (off + castUsize i)
      if pos < buf.length then writeLoop spec off (buf.set pos x) is vs
      else (buf, .error (.panicIndex pos buf.length))

/-- The `__setitem__` method: slice + sequence writes through the loop,
integer + integer writes a single element, every other shape is the
generic RuntimeError. -/
def __setitem__ (spec : ElemSpec α) (buf : List α) (off : Nat)
    (index : PyIndex) (value : PyVal) : List α × Except ViewErr Unit :=
  match index, asSequenceList value with
  | .slice a b st, some values =>
    (match sliceIndices a b st buf.length with
     | .error e => (buf, .error e)
     | .ok (start, stop, step) =>
       if start ≥ stop then (buf, .error (.emptySlice start stop))
       else if step < 1 then (buf, .error (.nonPositiveStep step))
       else
         let iter := rangeStepBy start stop step
         if iter.length > buf.length then
           (buf, .error (.sliceOverflow buf.length off iter.length))
         else writeLoop spec off buf iter values)
  | .val v, _ =>
    (match extractIsize v, spec.extractPyInt value with
     | some i, some x =>
       if i < 0 then (buf, .error .negativeIndex)
       else
         let idx := wrap (off + castUsize i)
         if buf.length ≤ idx then (buf, .error (.outOfBoundSet idx buf.length))
         else (buf.set idx x, .ok ())
     | _, _ => (buf, .error .shapeError))
  | .slice _ _ _, none => (buf, .error .shapeError)

/-- The `Uint8Array` instantiation: `extract::<u8>` accepts exactly the
Python ints in `[0, 256)` and rejects floats. -/
def u8Spec : ElemSpec Nat where
  ofInt := fun n => if 0 ≤ n ∧ n < 256 then some n.toNat else none
  ofFloat := fun _ => none

/-- Abstract `f64` element values for the `Float64Array` instantiation:
the claims never compute with floats, so a value is recorded as the int
or the (tagged) float it was converted from. -/
inductive F64 where
  | ofInt : Int → F64
  | ofFloat : Nat → F64
deriving DecidableEq

/-- The `Float64Array` instantiation: `extract::<f64>` accepts both
Python ints and floats. -/
def f64Spec : ElemSpec F64 where
  ofInt := fun n => some (.ofInt n)
  ofFloat := fun t => some (.ofFloat t)

/-! Helper lemmas about the usize model and slice normalization. -/

theorem wrap_eq_of_lt {n : Nat} (h : n < USIZE) : wrap n = n := by
  simp only [wrap, USIZE] at *
  omega

theorem castUsize_eq_toNat {x : Int} (h0 : 0 ≤ x) (h1 : x < (USIZE : Int)) :
    castUsize x = x.toNat := by
  simp only [castUsize, USIZE] at *
  omega

theorem usub1_eq {e : Nat} (h : e ≠ 0) : usub1 e = e - 1 := by
  simp [usub1, h]

theorem usubW_succ {a : Nat} (h : a < USIZE) : usubW (a + 1) a = 1 := by
  simp only [usubW, USIZE] at *
  omega

theorem usubW_eq {a b : Nat} (hba : b ≤ a) (ha : a < USIZE) : usubW a b = a - b := by
  simp only [usubW, USIZE] at *
  omega

theorem ISIZE_MAX_lt_USIZE : ISIZE_MAX < (USIZE : Int) := by
  simp only [ISIZE_MAX, USIZE]
  norm_num

theorem clampIdx_eq_self {x : Int} (h0 : ISIZE_MIN ≤ x) (h1 : x ≤ ISIZE_MAX) :
    clampIdx x = x := by
  simp only [clampIdx, ISIZE_MIN, ISIZE_MAX] at *
  omega

theorem clampStep_eq_self {s : Int} (h0 : -ISIZE_MAX ≤ s) (h1 : s ≤ ISIZE_MAX) :
    clampStep s = s := by
  simp only [clampStep, ISIZE_MAX] at *
  omega

theorem clampStep_pos {s : Int} (h : 0 < s) : 0 < clampStep s := by
  simp only [clampStep, ISIZE_MAX]
  omega

theorem adjustIndex_nonneg {L step x : Int} (hstep : 0 < step) (hL : 0 ≤ L) :
    0 ≤ adjustIndex L step x := by
  simp only [adjustIndex]
  split <;> split <;> omega

theorem adjustIndex_le {L step x : Int} (hL : 0 ≤ L) : adjustIndex L step x ≤ L := by
  simp only [adjustIndex]
  split
  · split
    · split <;> omega
    · omega
  · split
    · split <;> omega
    · omega

theorem adjustIndex_eq_self {L step x : Int} (h0 : 0 ≤ x) (h1 : x < L) :
    adjustIndex L step x = x := by
  simp only [adjustIndex]
  rw [if_neg (by omega), if_neg (by omega)]

theorem adjustIndex_eq_self_of_le {L step x : Int} (hstep : 0 < step) (h0 : 0 ≤ x)
    (h1 : x ≤ L) : adjustIndex L step x = x := by
  rcases lt_or_eq_of_le h1 with h | h
  · exact adjustIndex_eq_self h0 h
  · simp only [adjustIndex]
    rw [if_neg (by omega), if_pos (by omega), if_neg (by omega), h]

theorem sliceIndices_pos {start stop : Int} {st : Option Int} {len : Nat}
    (hs1 : 1 ≤ st.getD 1) (hs2 : st.getD 1 ≤ ISIZE_MAX)
    (hstart : 0 ≤ start) (hstart2 : start ≤ (len : Int)) (hstartM : start ≤ ISIZE_MAX)
    (hstop : 0 ≤ stop) (hstop2 : stop ≤ (len : Int)) (hstopM : stop ≤ ISIZE_MAX) :
    sliceIndices start stop st len = .ok (start, stop, st.getD 1) := by
  simp only [sliceIndices]
  rw [if_neg (by omega)]
  rw [clampStep_eq_self (by omega) hs2]
  rw [clampIdx_eq_self (by simp only [ISIZE_MIN]; omega) hstartM]
  rw [clampIdx_eq_self (by simp only [ISIZE_MIN]; omega) hstopM]
  rw [adjustIndex_eq_self_of_le (by omega) hstart hstart2]
  rw [adjustIndex_eq_self_of_le (by omega) hstop hstop2]

/-! Lemmas about the write iterator `rangeStepBy`. -/

theorem rangeStepBy_eq_map {a b s : Int} (hs : 0 < s) (hab : a < b) :
    rangeStepBy a b s
      = (List.range ((b - a - 1).toNat / s.toNat + 1)).map
          (fun k : Nat => a + s * (k : Int)) := by
  unfold rangeStepBy
  rw [if_pos ⟨hs, hab⟩]

theorem length_rangeStepBy {a b s : Int} (hs : 0 < s) (hab : a < b) :
    (rangeStepBy a b s).length = (b - a - 1).toNat / s.toNat + 1 := by
  rw [rangeStepBy_eq_map hs hab, List.length_map, List.length_range]

theorem length_rangeStepBy_le {a b s : Int} (hs : 0 < s) (hab : a < b) (ha : 0 ≤ a) :
    (rangeStepBy a b s).length ≤ b.toNat := by
  rw [length_rangeStepBy hs hab]
  have h1 : (b - a - 1).toNat / s.toNat ≤ (b - a - 1).toNat := Nat.div_le_self _ _
  omega

theorem mem_rangeStepBy {a b s p : Int} (hs : 0 < s) (hp : p ∈ rangeStepBy a b s) :
    a ≤ p ∧ p < b := by
  by_cases hab : a < b
  · rw [rangeStepBy_eq_map hs hab] at hp
    obtain ⟨k, hk, rfl⟩ := List.mem_map.1 hp
    rw [List.mem_range] at hk
    have hk2 : k ≤ (b - a - 1).toNat / s.toNat := by omega
    have h6 : (b - a - 1).toNat / s.toNat * s.toNat ≤ (b - a - 1).toNat :=
      Nat.div_mul_le_self _ _
    have hk3 : k * s.toNat ≤ (b - a - 1).toNat :=
      le_trans (Nat.mul_le_mul_right _ hk2) h6
    have hcast : ((k * s.toNat : Nat) : Int) = (k : Int) * s := by
      push_cast [Int.toNat_of_nonneg (le_of_lt hs)]
      ring
    have hcast2 : (((b - a - 1).toNat : Nat) : Int) = b - a - 1 :=
      Int.toNat_of_nonneg (by omega)
    have hk4 : (k : Int) * s ≤ b - a - 1 := by
      rw [← hcast, ← hcast2]
      exact_mod_cast hk3
    constructor
    · have : 0 ≤ s * (k : Int) := mul_nonneg (le_of_lt hs) (by positivity)
      omega
    · have : s * (k : Int) ≤ b - a - 1 := by rw [mul_comm]; exact hk4
      omega
  · simp [rangeStepBy, hab] at hp

theorem rangeStepBy_pairwise {a b s : Int} (hs : 0 < s) :
    (rangeStepBy a b s).Pairwise (· < ·) := by
  by_cases hab : a < b
  · rw [rangeStepBy_eq_map hs hab]
    refine List.Pairwise.map _ ?_ (List.pairwise_lt_range _)
    intro k1 k2 hk
    have h1 : (k1 : Int) < (k2 : Int) := by exact_mod_cast hk
    have h2 := mul_lt_mul_of_pos_left h1 hs
    linarith
  · unfold rangeStepBy
    rw [if_neg (by tauto)]
    exact List.Pairwise.nil

/-! A model of sequential in-bounds stores and lemmas relating it to the
slice-write loop. -/

/-- Sequentially apply `(position, value)` stores to a buffer. -/
def applyWrites (buf : List α) : List (Nat × α) → List α
  | [] => buf
  | (p, c) :: rest => applyWrites (buf.set p c) rest

theorem length_applyWrites (ws : List (Nat × α)) :
    ∀ buf : List α, (applyWrites buf ws).length = buf.length := by
  induction ws with
  | nil => intro buf; rfl
  | cons pc rest ih =>
    intro buf
    obtain ⟨p, c⟩ := pc
    rw [applyWrites, ih, List.length_set]

theorem getElem?_applyWrites_of_notMem (ws : List (Nat × α)) :
    ∀ (buf : List α) (j : Nat), j ∉ ws.map Prod.fst →
      (applyWrites buf ws)[j]? = buf[j]? := by
  induction ws with
  | nil => intro buf j _; rfl
  | cons pc rest ih =>
    intro buf j hj
    obtain ⟨p, c⟩ := pc
    simp only [List.map_cons, List.mem_cons] at hj
    push_neg at hj
    rw [applyWrites, ih _ _ hj.2, List.getElem?_set_ne (Ne.symm hj.1)]

theorem getElem?_applyWrites_of_mem (ws : List (Nat × α)) :
    ∀ (buf : List α) (p : Nat) (c : α), (ws.map Prod.fst).Nodup → (p, c) ∈ ws →
      p < buf.length → (applyWrites buf ws)[p]? = some c := by
  induction ws with
  | nil => intro buf p c _ hmem; exact absurd hmem (List.not_mem_nil _)
  | cons pc rest ih =>
    intro buf p c hnd hmem hp
    obtain ⟨q, d⟩ := pc
    simp only [List.map_cons, List.nodup_cons] at hnd
    rcases List.mem_cons.1 hmem with heq | htail
    · cases heq
      rw [applyWrites, getElem?_applyWrites_of_notMem _ _ _ hnd.1,
        List.getElem?_set_self hp]
    · rw [applyWrites]
      exact ih _ _ _ hnd.2 htail (by rw [List.length_set]; omega)

theorem writeLoop_ne_sliceOverflow (spec : ElemSpec α) (off : Nat) (ps : List Int) :
    ∀ (vs : List PyVal) (buf : List α) (m o l : Nat),
      (writeLoop spec off buf ps vs).2 ≠ .error (.sliceOverflow m o l) := by
  induction ps with
  | nil => intro vs buf m o l; simp [writeLoop]
  | cons i is ih =>
    intro vs buf m o l
    cases vs with
    | nil => simp [writeLoop]
    | cons v vs' =>
      rw [writeLoop]
      cases h : spec.extract v with
      | none => simp
      | some x =>
        simp only
        split
        · exact ih _ _ _ _ _
        · simp

theorem writeLoop_ok (spec : ElemSpec α) (off : Nat) (ps : List Int) :
    ∀ (vs : List PyVal) (cs : List α) (buf : List α),
      List.Forall₂ (fun v c => spec.extract v = some c) (vs.take ps.length) cs →
      (∀ p ∈ ps.take vs.length, wrap (off + castUsize p) < buf.length) →
      writeLoop spec off buf ps vs
        = (applyWrites buf (((ps.map fun p => wrap (off + castUsize p)).zip cs)), .ok ()) := by
  induction ps with
  | nil =>
    intro vs cs buf _ _
    simp [writeLoop, applyWrites]
  | cons i is ih =>
    intro vs cs buf hconv hbound
    cases vs with
    | nil =>
      rw [List.take_nil] at hconv
      rw [List.forall₂_nil_left_iff] at hconv
      subst hconv
      simp [writeLoop, applyWrites]
    | cons v vs' =>
      rw [List.length_cons, List.take_succ_cons] at hconv
      cases hconv with
      | cons hvc htail =>
        rename_i c cs'
        have hhead : wrap (off + castUsize i) < buf.length := by
          refine hbound i ?_
          rw [List.length_cons, List.take_succ_cons]
          exact List.mem_cons_self _ _
        rw [writeLoop, hvc]
        simp only
        rw [if_pos hhead]
        rw [ih vs' cs' _ htail ?_]
        · rw [List.map_cons, List.zip_cons_cons, applyWrites]
        · intro p hp
          rw [List.length_set]
          refine hbound p ?_
          rw [List.length_cons, List.take_succ_cons]
          exact List.mem_cons_of_mem _ hp

theorem writeLoop_fail (spec : ElemSpec α) (off : Nat) (ps : List Int) :
    ∀ (vs : List PyVal) (cs : List α) (buf : List α) (vbad : PyVal),
      List.Forall₂ (fun v c => spec.extract v = some c) (vs.take cs.length) cs →
      vs[cs.length]? = some vbad → spec.extract vbad = none →
      cs.length < ps.length →
      (∀ p ∈ ps.take cs.length, wrap (off + castUsize p) < buf.length) →
      writeLoop spec off buf ps vs
        = (applyWrites buf (((ps.map fun p => wrap (off + castUsize p)).zip cs)),
           .error .typeMismatch) := by
  induction ps with
  | nil =>
    intro vs cs buf vbad _ _ _ hlt _
    exact absurd hlt (by simp)
  | cons i is ih =>
    intro vs cs buf vbad hconv hbad hbadconv hlt hbound
    cases cs with
    | nil =>
      cases vs with
      | nil => simp at hbad
      | cons v vs' =>
        rw [List.length_nil] at hbad
        rw [List.getElem?_cons_zero] at hbad
        injection hbad with hbad
        subst hbad
        rw [writeLoop, hbadconv]
        simp [applyWrites]
    | cons c cs' =>
      cases vs with
      | nil => simp at hbad
      | cons v vs' =>
        rw [List.length_cons, List.take_succ_cons] at hconv
        cases hconv with
        | cons hvc htail =>
          have hhead : wrap (off + castUsize i) < buf.length := by
            refine hbound i ?_
            rw [List.length_cons, List.take_succ_cons]
            exact List.mem_cons_self _ _
          rw [writeLoop, hvc]
          simp only
          rw [if_pos hhead]
          rw [List.length_cons, List.getElem?_cons_succ] at hbad
          simp only [List.length_cons] at hlt
          rw [ih vs' cs' _ vbad htail hbad hbadconv (by omega) ?_]
          · rw [List.map_cons, List.zip_cons_cons, applyWrites]
          · intro p hp
            rw [List.length_set]
            refine hbound p ?_
            rw [List.length_cons, List.take_succ_cons]
            exact List.mem_cons_of_mem _ hp

/-! Reductions of the slice arms of `__setitem__` and `__getitem__` under
normal-range hypotheses. -/

theorem setitem_slice_reduces (spec : ElemSpec α) (buf : List α) (off : Nat)
    (a b : Int) (st : Option Int) (vals : List PyVal)
    (ha : 0 ≤ a) (hab : a < b) (hb : b ≤ (buf.length : Int))
    (hlenM : (buf.length : Int) ≤ ISIZE_MAX)
    (hs1 : 1 ≤ st.getD 1) (hs2 : st.getD 1 ≤ ISIZE_MAX) :
    __setitem__ spec buf off (.slice a b st) (.list vals)
      = writeLoop spec off buf (rangeStepBy a b (st.getD 1)) vals := by
  have h1 := @sliceIndices_pos a b st buf.length
    hs1 hs2 ha (by omega) (by omega) (by omega) hb (by omega)
  simp only [__setitem__, asSequenceList, h1]
  rw [if_neg (by omega), if_neg (by omega),
    if_neg (by
      have h2 := length_rangeStepBy_le (a := a) (b := b) (s := st.getD 1) (by omega) hab ha
      omega)]

theorem resolveIndexGet_slice_one (len off : Nat) (a b : Int) (st : Option Int)
    (ha : 0 ≤ a) (hab : a < b) (hb : b ≤ (len : Int)) (hlenM : (len : Int) ≤ ISIZE_MAX)
    (hst : st.getD 1 = 1) (hwrap : off + b.toNat < USIZE) :
    resolveIndexGet len off (.slice a b st) = .ok (off + a.toNat, min (off + b.toNat) len) := by
  have h1 := @sliceIndices_pos a b st len
    (by omega) (by rw [hst]; simp only [ISIZE_MAX]; omega) ha (by omega) (by omega)
    (by omega) hb (by omega)
  simp only [resolveIndexGet, h1, hst]
  rw [if_neg (by omega), if_neg (by omega)]
  have hcb : castUsize b = b.toNat := castUsize_eq_toNat (by omega) (by
    have := ISIZE_MAX_lt_USIZE
    omega)
  have hca : castUsize a = a.toNat := castUsize_eq_toNat ha (by
    have := ISIZE_MAX_lt_USIZE
    omega)
  rw [hca, hcb, wrap_eq_of_lt (by omega), wrap_eq_of_lt (by omega)]

/-! Inversion lemmas for slice normalization and the dispatch helpers. -/

theorem sliceIndices_error_eq {a b : Int} {st : Option Int} {len : Nat} {e : ViewErr}
    (h : sliceIndices a b st len = .error e) : e = .zeroStep := by
  simp only [sliceIndices] at h
  split at h
  · injection h with h
    exact h.symm
  · exact absurd h (by simp)

theorem sliceIndices_ok_inv {a b : Int} {st : Option Int} {len : Nat}
    {start stop step : Int} (h : sliceIndices a b st len = .ok (start, stop, step)) :
    step = clampStep (st.getD 1) ∧ start = adjustIndex (len : Int) step (clampIdx a)
      ∧ stop = adjustIndex (len : Int) step (clampIdx b) := by
  simp only [sliceIndices] at h
  split at h
  · exact absurd h (by simp)
  · rw [Except.ok.injEq, Prod.mk.injEq, Prod.mk.injEq] at h
    obtain ⟨h1, h2, h3⟩ := h
    subst h3
    exact ⟨rfl, h1.symm, h2.symm⟩

theorem sliceIndices_interior {a b : Int} {st : Option Int} {len : Nat}
    (hstep : st.getD 1 ≠ 0) (hs1 : -ISIZE_MAX ≤ st.getD 1) (hs2 : st.getD 1 ≤ ISIZE_MAX)
    (ha0 : 0 ≤ a) (haL : a < (len : Int)) (haM : a ≤ ISIZE_MAX)
    (hb0 : 0 ≤ b) (hbL : b < (len : Int)) (hbM : b ≤ ISIZE_MAX) :
    sliceIndices a b st len = .ok (a, b, st.getD 1) := by
  simp only [sliceIndices]
  rw [if_neg hstep]
  rw [clampStep_eq_self hs1 hs2]
  rw [clampIdx_eq_self (by simp only [ISIZE_MIN]; omega) haM]
  rw [clampIdx_eq_self (by simp only [ISIZE_MIN]; omega) hbM]
  rw [adjustIndex_eq_self ha0 haL, adjustIndex_eq_self hb0 hbL]

theorem sliceIndices_zero {a b : Int} {st : Option Int} {len : Nat}
    (hstep : st.getD 1 = 0) : sliceIndices a b st len = .error .zeroStep := by
  simp only [sliceIndices]
  rw [if_pos hstep]

theorem getitem_ok_eq {buf : List α} {off : Nat} {index : PyIndex} {rs re : Nat}
    (h : resolveIndexGet buf.length off index = .ok (rs, re)) :
    __getitem__ buf off index
      = if buf.length ≤ usub1 re then .error (.outOfBound (usub1 re) buf.length)
        else if usubW re rs = 1 then
          match buf[rs]? with
          | some x => .ok (.one x)
          | none => .error (.panicIndex rs buf.length)
        else if rs ≤ re ∧ re ≤ buf.length then .ok (.many ((buf.drop rs).take (re - rs)))
        else .error (.panicRange rs re buf.length) := by
  unfold __getitem__
  rw [h]

theorem getitem_error_eq {buf : List α} {off : Nat} {index : PyIndex} {e : ViewErr}
    (h : resolveIndexGet buf.length off index = .error e) :
    __getitem__ buf off index = .error e := by
  unfold __getitem__
  rw [h]

theorem resolveIndexGet_slice_of_error {len off : Nat} {a b : Int} {st : Option Int}
    {e : ViewErr} (h : sliceIndices a b st len = .error e) :
    resolveIndexGet len off (.slice a b st) = .error e := by
  simp only [resolveIndexGet, h]

theorem setitem_slice_of_indices_error (spec : ElemSpec α) {buf : List α} {off : Nat}
    {a b : Int} {st : Option Int} {vals : List PyVal} {e : ViewErr}
    (h : sliceIndices a b st buf.length = .error e) :
    __setitem__ spec buf off (.slice a b st) (.list vals) = (buf, .error e) := by
  simp only [__setitem__, asSequenceList, h]

theorem writeLoop_nil_vals (spec : ElemSpec α) (off : Nat) (ps : List Int)
    (buf : List α) : writeLoop spec off buf ps [] = (buf, .ok ()) := by
  cases ps <;> rfl

theorem map_fst_zip_eq_take (l1 : List β) (l2 : List γ) :
    (l1.zip l2).map Prod.fst = l1.take l2.length := by
  induction l1 generalizing l2 with
  | nil => simp
  | cons x xs ih =>
    cases l2 with
    | nil => simp
    | cons y ys => simp [ih]

theorem resolveIndexGet_slice_error_not_oob {len off : Nat} {a b : Int} {st : Option Int}
    {e : ViewErr} (h : resolveIndexGet len off (.slice a b st) = .error e) :
    ∀ n m : Nat, e ≠ .outOfBound n m := by
  intro n m
  simp only [resolveIndexGet] at h
  cases hsi : sliceIndices a b st len with
  | error e2 =>
    rw [hsi] at h
    injection h with h
    rw [← h, sliceIndices_error_eq hsi]
    simp
  | ok triple =>
    obtain ⟨start, stop, step⟩ := triple
    rw [hsi] at h
    simp only at h
    split at h
    · injection h with h
      rw [← h]
      simp
    · split at h
      · injection h with h
        rw [← h]
        simp
      · exact absurd h (by simp)

theorem resolveIndexGet_slice_ok_re {len off : Nat} {a b : Int} {st : Option Int}
    {rs re : Nat} (hstep : 0 < st.getD 1) (hoff : off + len < USIZE)
    (h : resolveIndexGet len off (.slice a b st) = .ok (rs, re)) :
    1 ≤ re ∧ re ≤ len := by
  simp only [resolveIndexGet] at h
  cases hsi : sliceIndices a b st len with
  | error e2 =>
    rw [hsi] at h
    exact absurd h (by simp)
  | ok triple =>
    obtain ⟨start, stop, step⟩ := triple
    obtain ⟨hst, hstart, hstop⟩ := sliceIndices_ok_inv hsi
    have hsteppos : 0 < step := hst ▸ clampStep_pos hstep
    rw [hsi] at h
    simp only at h
    split at h
    · exact absurd h (by simp)
    · split at h
      · exact absurd h (by simp)
      · rw [Except.ok.injEq, Prod.mk.injEq] at h
        obtain ⟨h1, h2⟩ := h
        rename_i hss _
        have hge : 0 ≤ start := by
          rw [hstart]
          exact adjustIndex_nonneg hsteppos (by positivity)
        have hle : stop ≤ (len : Int) := by
          rw [hstop]
          exact adjustIndex_le (by positivity)
        have hstop1 : 1 ≤ stop := by omega
        have hlen1 : 1 ≤ len := by omega
        have hcs : castUsize stop = stop.toNat := by
          refine castUsize_eq_toNat (by omega) ?_
          simp only [USIZE] at hoff ⊢
          omega
        have hw : wrap (off + stop.toNat) = off + stop.toNat := by
          refine wrap_eq_of_lt ?_
          simp only [USIZE] at hoff ⊢
          omega
        rw [hcs, hw] at h2
        omega

/-- C1: the claim that every resolved absolute address is checked against
the raw element count before any buffer access, so no operation can touch
the buffer out of range, fails on the code: with raw element count 10 and
view offset 5, a slice write whose (offset-relative) indices were clamped
only against the raw count writes absolute positions 5..9 and then indexes
`view[10]`, an out-of-range access (a Rust panic) that occurs after five
elements were already stored. -/
theorem c1_offset_slice_write_out_of_range :
    __setitem__ u8Spec [0, 1, 2, 3, 4, 5, 6, 7, 8, 9] 5 (.slice 0 10 none)
        (.list (List.replicate 10 (.int 1)))
      = ([0, 1, 2, 3, 4, 1, 1, 1, 1, 1], .error (.panicIndex 10 10)) := by decide

/-- C2 (counterexample): `set((0,100), [1]*100)` on a length-10 view does
not fail with SliceOverflow; slice normalization clamps the range to the
raw element count, the write succeeds and stores all ten positions. -/
theorem c2_counterexample :
    __setitem__ u8Spec [0, 1, 2, 3, 4, 5, 6, 7, 8, 9] 0 (.slice 0 100 none)
        (.list (List.replicate 100 (.int 1)))
      = (List.replicate 10 1, .ok ()) := by decide

/-- C2 (amended): the SliceOverflow guard of `__setitem__` compares the
iterator length against the raw element count after `slice.indices` has
already clamped the range to that same count, so it can never fire: no
call of `__setitem__`, with any selector and value, returns the
SliceOverflow error. -/
theorem c2_slice_overflow_unreachable (spec : ElemSpec α) (buf : List α) (off : Nat)
    (index : PyIndex) (value : PyVal) (m o l : Nat) :
    (__setitem__ spec buf off index value).2 ≠ .error (.sliceOverflow m o l) := by
  cases index with
  | val v =>
    cases h1 : extractIsize v with
    | none => simp [__setitem__, h1]
    | some i =>
      cases h2 : spec.extractPyInt value with
      | none => simp [__setitem__, h1, h2]
      | some x =>
        simp only [__setitem__, h1, h2]
        split
        · simp
        · split <;> simp
  | slice a b st =>
    cases hseq : asSequenceList value with
    | none => simp [__setitem__, hseq]
    | some vals =>
      cases hsi : sliceIndices a b st buf.length with
      | error e =>
        simp only [__setitem__, hseq, hsi]
        rw [sliceIndices_error_eq hsi]
        simp
      | ok triple =>
        obtain ⟨start, stop, step⟩ := triple
        obtain ⟨hst, hstart, hstop⟩ := sliceIndices_ok_inv hsi
        simp only [__setitem__, hseq, hsi]
        split
        · simp
        · split
          · simp
          · rename_i hss hstep
            split
            · rename_i hguard
              exfalso
              have hsteppos : 0 < step := by omega
              have hge : 0 ≤ start := by
                rw [hstart]
                exact adjustIndex_nonneg hsteppos (by positivity)
              have hle : stop ≤ (buf.length : Int) := by
                rw [hstop]
                exact adjustIndex_le (by positivity)
              have hlen := length_rangeStepBy_le (a := start) (b := stop) (s := step)
                hsteppos (by omega) hge
              omega
            · exact writeLoop_ne_sliceOverflow spec off _ vals buf m o l

/-- C2 (witness for the amended theorem at a concrete input). -/
theorem c2_witness :
    (__setitem__ u8Spec [0, 1] 0 (.val (.int 0)) (.int 1)).2
      ≠ .error (.sliceOverflow 0 0 0) :=
  c2_slice_overflow_unreachable u8Spec [0, 1] 0 (.val (.int 0)) (.int 1) 0 0 0

/-- C3 (counterexample): a range whose stop was clamped is not rejected by
the final bounds check: `get((8,100))` on a length-10 buffer at offset 0
succeeds and returns the elements up to the buffer end. -/
theorem c3_counterexample :
    __getitem__ [0, 1, 2, 3, 4, 5, 6, 7, 8, 9] 0 (.slice 8 100 none)
      = .ok (.many [8, 9]) := by decide

/-- C3 (amended): for a range selector with positive step, the resolved
absolute range is `(offset+start) .. min(offset+stop, raw_element_count)`
with only the upper bound clamped, and (for machine-representable sizes)
the final bounds check can never fire on this path: no such `get` returns
the IndexOutOfBounds error.  A clamped range is accepted and reads up to
the buffer end; a start at or beyond the view end leads to an EmptySlice
rejection or a panicking Rust range, never to the bounds-check error. -/
theorem c3_slice_get_never_out_of_bound (buf : List α) (off : Nat) (a b : Int)
    (st : Option Int) (n m : Nat) (hstep : 0 < st.getD 1)
    (hoff : off + buf.length < USIZE) :
    __getitem__ buf off (.slice a b st) ≠ .error (.outOfBound n m) := by
  cases hri : resolveIndexGet buf.length off (.slice a b st) with
  | error e =>
    rw [getitem_error_eq hri]
    intro hcontra
    injection hcontra with hcontra
    exact resolveIndexGet_slice_error_not_oob hri n m hcontra
  | ok p =>
    obtain ⟨rs, re⟩ := p
    obtain ⟨hre1, hre2⟩ := resolveIndexGet_slice_ok_re hstep hoff hri
    rw [getitem_ok_eq hri]
    rw [if_neg (by rw [usub1_eq (by omega)]; omega)]
    split
    · cases hb : buf[rs]? <;> simp
    · split <;> simp

/-- C3 (witness for the amended theorem at a concrete input). -/
theorem c3_witness :
    __getitem__ [0, 1, 2, 3, 4, 5, 6, 7, 8, 9] 0 (.slice 8 100 none)
      ≠ .error (.outOfBound 9 10) :=
  c3_slice_get_never_out_of_bound [0, 1, 2, 3, 4, 5, 6, 7, 8, 9] 0 8 100 none 9 10
    (by decide) (by decide)

/-- C4: read-after-write at a single index: for a view whose length is
`L`, a non-negative in-range index `i` and a value convertible to the
element type, `set(i, v)` succeeds and an immediately following `get(i)`
returns exactly the stored element. -/
theorem c4_read_after_write (spec : ElemSpec α) (buf : List α) (off : Nat) (i n : Int)
    (x : α) (L : Nat) (hlen : __len__ buf off = .ok L) (hi0 : 0 ≤ i) (hiL : i.toNat < L)
    (hiso : i < 2 ^ 63) (hbuf : buf.length < USIZE) (hconv : spec.ofInt n = some x) :
    (__setitem__ spec buf off (.val (.int i)) (.int n)).2 = .ok () ∧
    __getitem__ (__setitem__ spec buf off (.val (.int i)) (.int n)).1 off (.val (.int i))
      = .ok (.one x) := by
  have hoffle : off ≤ buf.length ∧ L = buf.length - off := by
    unfold __len__ at hlen
    split at hlen
    · refine ⟨‹_›, ?_⟩
      injection hlen with hlen
      omega
    · exact absurd hlen (by simp)
  have hidx : off + i.toNat < buf.length := by omega
  have hext : extractIsize (.int i) = some i := by
    simp only [extractIsize]
    rw [if_pos ⟨by omega, hiso⟩]
  have hcast : castUsize i = i.toNat := castUsize_eq_toNat hi0 (by
    simp only [USIZE]
    omega)
  have hwrap : wrap (off + i.toNat) = off + i.toNat := wrap_eq_of_lt (by omega)
  have hset : __setitem__ spec buf off (.val (.int i)) (.int n)
      = (buf.set (off + i.toNat) x, .ok ()) := by
    simp only [__setitem__, hext, ElemSpec.extractPyInt, hconv]
    rw [if_neg (by omega), hcast, hwrap, if_neg (by omega)]
  rw [hset]
  refine ⟨rfl, ?_⟩
  have hresolve : resolveIndexGet (buf.set (off + i.toNat) x).length off (.val (.int i))
      = .ok (off + i.toNat, off + i.toNat + 1) := by
    simp only [resolveIndexGet, hext, List.length_set]
    rw [if_neg (by omega), hcast, hwrap, wrap_eq_of_lt (by omega)]
  rw [getitem_ok_eq hresolve, List.length_set]
  rw [usub1_eq (by omega), if_neg (by omega)]
  rw [if_pos (usubW_succ (by omega))]
  rw [List.getElem?_set_self hidx]

/-- C4 (witness at a concrete input). -/
theorem c4_witness :
    (__setitem__ u8Spec [5, 6, 7] 1 (.val (.int 1)) (.int 9)).2 = .ok () ∧
    __getitem__ (__setitem__ u8Spec [5, 6, 7] 1 (.val (.int 1)) (.int 9)).1 1
        (.val (.int 1)) = .ok (.one 9) :=
  c4_read_after_write u8Spec [5, 6, 7] 1 1 9 9 2 (by decide) (by decide) (by decide)
    (by decide) (by decide) (by decide)

/-- C5 (counterexample): a range selector resolving to exactly one element
does not return a one-element sequence: `get((2,3))` on `[0..9]` returns
the bare scalar 2 (the code's `range.end - range.start == 1` branch). -/
theorem c5_counterexample :
    __getitem__ [0, 1, 2, 3, 4, 5, 6, 7, 8, 9] 0 (.slice 2 3 none)
      = .ok (.one 2) := by decide

/-- C5 (amended): for an accepted in-bounds step-1 range selector that
resolves to at least two elements, `get` returns the ordered contiguous
window of the raw buffer starting at `offset + start`, i.e. offset
semantics are a pure shift with no reordering (a one-element resolved
range instead returns the bare scalar). -/
theorem c5_slice_get_is_shifted_window (buf : List α) (off : Nat) (a b : Int)
    (ha : 0 ≤ a) (hab : a + 1 < b) (hb : b ≤ (buf.length : Int))
    (hlenM : (buf.length : Int) ≤ ISIZE_MAX) (hoff : off + b.toNat ≤ buf.length) :
    __getitem__ buf off (.slice a b none)
      = .ok (.many ((buf.drop (off + a.toNat)).take (b.toNat - a.toNat))) := by
  have hU := ISIZE_MAX_lt_USIZE
  have hwrap : off + b.toNat < USIZE := by
    simp only [USIZE] at *
    omega
  have hri := resolveIndexGet_slice_one buf.length off a b none ha (by omega) hb hlenM
    rfl hwrap
  rw [getitem_ok_eq hri]
  rw [min_eq_left hoff]
  rw [usub1_eq (by omega), if_neg (by omega)]
  rw [usubW_eq (by omega) (by omega)]
  rw [if_neg (by omega)]
  rw [if_pos ⟨by omega, by omega⟩]
  have heq : off + b.toNat - (off + a.toNat) = b.toNat - a.toNat := by omega
  rw [heq]

/-- C5 (witness at a concrete input). -/
theorem c5_witness :
    __getitem__ (α := Nat) [0, 1, 2, 3, 4] 1 (.slice 0 3 none)
      = .ok (.many ((([0, 1, 2, 3, 4] : List Nat).drop (1 + (0 : Int).toNat)).take
          ((3 : Int).toNat - (0 : Int).toNat))) :=
  c5_slice_get_is_shifted_window [0, 1, 2, 3, 4] 1 0 3 (by decide) (by decide)
    (by decide) (by decide) (by decide)

/-- C8 (counterexample): `length()` is not total: with a raw element count
of 3 and offset 5 the `view[offset..]` slice panics instead of returning a
value, so the offset-past-the-end condition is surfaced by `__len__`
itself rather than only by later accesses. -/
theorem c8_counterexample :
    __len__ (α := Nat) [0, 0, 0] 5 = .error (.panicSliceStart 5 3) := by decide

/-- C8 (amended): whenever `offset ≤ raw_element_count(buffer)`, `length()`
returns `raw_element_count(buffer) - offset`, recomputed from the buffer
on every call: growing the buffer is reflected by the next call with no
caching; but when `offset > raw_element_count(buffer)` the slicing
operation panics instead of returning. -/
theorem c8_length_recomputed (buf ext : List α) (off : Nat) (hoff : off ≤ buf.length) :
    __len__ buf off = .ok (buf.length - off) ∧
    __len__ (buf ++ ext) off = .ok (buf.length + ext.length - off) := by
  constructor
  · rw [__len__, if_pos hoff]
  · rw [__len__, List.length_append, if_pos (by omega)]

/-- C8 (witness at a concrete input). -/
theorem c8_witness :
    __len__ (α := Nat) [7, 7, 7] 1 = .ok (3 - 1) ∧
    __len__ ([7, 7, 7] ++ [7] : List Nat) 1 = .ok (3 + 1 - 1) :=
  c8_length_recomputed [7, 7, 7] [7] 1 (by decide)

/-- C6 (counterexample): `get` does not fail with UnsupportedStep for
every step different from 1: a negative step whose normalized range has
`start < stop` (here `get((2,5,-1))` on `[0..9]`) is accepted and read as
if the step were 1. -/
theorem c6_counterexample :
    __getitem__ [0, 1, 2, 3, 4, 5, 6, 7, 8, 9] 0 (.slice 2 5 (some (-1)))
      = .ok (.many [2, 3, 4]) := by decide

/-- C6 (amended): the asymmetric step policy, for an interior range
`0 ≤ a < b < raw_element_count`: `get` rejects a step `> 1` with
UnsupportedStep but silently accepts a negative step (reading as if the
step were 1); a step of 0 fails inside slice normalization with the
zero-step ValueError for both `get` and `set`; `set` rejects a negative
step with the positive-step error and accepts every step `≥ 1` (an empty
value sequence writes nothing and succeeds); and an inverted range
(`start ≥ stop`) fails with EmptySlice on both paths for every nonzero
step. -/
theorem c6_step_policy (spec : ElemSpec α) (buf : List α) (off : Nat) (a b s : Int)
    (vs : List PyVal)
    (ha : 0 ≤ a) (hab : a < b) (hb : b < (buf.length : Int))
    (hlenM : (buf.length : Int) ≤ ISIZE_MAX)
    (hs1 : -ISIZE_MAX ≤ s) (hs2 : s ≤ ISIZE_MAX) :
    (1 < s → __getitem__ buf off (.slice a b (some s)) = .error (.unsupportedStep s)) ∧
    (s < 0 → __getitem__ buf off (.slice a b (some s))
        = __getitem__ buf off (.slice a b (some 1))) ∧
    (s = 0 → __getitem__ buf off (.slice a b (some s)) = .error .zeroStep) ∧
    (s = 0 → (__setitem__ spec buf off (.slice a b (some s)) (.list vs)).2
        = .error .zeroStep) ∧
    (s < 0 → (__setitem__ spec buf off (.slice a b (some s)) (.list vs)).2
        = .error (.nonPositiveStep s)) ∧
    (1 ≤ s → (__setitem__ spec buf off (.slice a b (some s)) (.list [])).2 = .ok ()) ∧
    (s ≠ 0 → __getitem__ buf off (.slice b a (some s)) = .error (.emptySlice b a)) ∧
    (s ≠ 0 → (__setitem__ spec buf off (.slice b a (some s)) (.list vs)).2
        = .error (.emptySlice b a)) := by
  have hsi : s ≠ 0 → sliceIndices a b (some s) buf.length = .ok (a, b, s) := by
    intro hne
    have h := @sliceIndices_interior a b (some s) buf.length
      (by simpa) (by simpa) (by simpa) ha (by omega) (by omega) (by omega) hb (by omega)
    simpa using h
  have hsiR : s ≠ 0 → sliceIndices b a (some s) buf.length = .ok (b, a, s) := by
    intro hne
    have h := @sliceIndices_interior b a (some s) buf.length
      (by simpa) (by simpa) (by simpa) (by omega) hb (by omega) ha (by omega) (by omega)
    simpa using h
  refine ⟨?_, ?_, ?_, ?_, ?_, ?_, ?_, ?_⟩
  · intro hgt
    refine getitem_error_eq ?_
    simp only [resolveIndexGet, hsi (by omega)]
    rw [if_neg (by omega), if_pos (by omega)]
  · intro hneg
    have hsi1 : sliceIndices a b (some 1) buf.length = .ok (a, b, 1) := by
      have h := @sliceIndices_interior a b (some 1) buf.length
        (by simp) (by simp [ISIZE_MAX]) (by simp [ISIZE_MAX])
        ha (by omega) (by omega) (by omega) hb (by omega)
      simpa using h
    have hrS : resolveIndexGet buf.length off (.slice a b (some s))
        = .ok (wrap (off + castUsize a), min (wrap (off + castUsize b)) buf.length) := by
      simp only [resolveIndexGet, hsi (by omega)]
      rw [if_neg (by omega), if_neg (by omega)]
    have hr1 : resolveIndexGet buf.length off (.slice a b (some 1))
        = .ok (wrap (off + castUsize a), min (wrap (off + castUsize b)) buf.length) := by
      simp only [resolveIndexGet, hsi1]
      rw [if_neg (by omega), if_neg (by omega)]
    rw [getitem_ok_eq hrS, getitem_ok_eq hr1]
  · intro h0
    exact getitem_error_eq (resolveIndexGet_slice_of_error (sliceIndices_zero (by simpa)))
  · intro h0
    rw [setitem_slice_of_indices_error spec (sliceIndices_zero (by simpa))]
  · intro hneg
    simp only [__setitem__, asSequenceList, hsi (by omega)]
    rw [if_neg (by omega), if_pos (by omega)]
  · intro hpos
    rw [setitem_slice_reduces spec buf off a b (some s) [] ha hab (le_of_lt hb) hlenM
      (by simpa) (by simpa)]
    rw [writeLoop_nil_vals]
  · intro hne
    refine getitem_error_eq ?_
    simp only [resolveIndexGet, hsiR hne]
    rw [if_pos (by omega)]
  · intro hne
    simp only [__setitem__, asSequenceList, hsiR hne]
    rw [if_pos (by omega)]

/-- C6 (witness at a concrete input). -/
theorem c6_witness :
    ((1 : Int) < 2 → __getitem__ (α := Nat) [0, 1, 2, 3, 4, 5, 6, 7, 8, 9] 0
        (.slice 2 5 (some 2)) = .error (.unsupportedStep 2)) ∧
    ((2 : Int) < 0 → __getitem__ (α := Nat) [0, 1, 2, 3, 4, 5, 6, 7, 8, 9] 0
        (.slice 2 5 (some 2))
        = __getitem__ (α := Nat) [0, 1, 2, 3, 4, 5, 6, 7, 8, 9] 0 (.slice 2 5 (some 1))) ∧
    ((2 : Int) = 0 → __getitem__ (α := Nat) [0, 1, 2, 3, 4, 5, 6, 7, 8, 9] 0
        (.slice 2 5 (some 2)) = .error .zeroStep) ∧
    ((2 : Int) = 0 → (__setitem__ u8Spec [0, 1, 2, 3, 4, 5, 6, 7, 8, 9] 0
        (.slice 2 5 (some 2)) (.list [])).2 = .error .zeroStep) ∧
    ((2 : Int) < 0 → (__setitem__ u8Spec [0, 1, 2, 3, 4, 5, 6, 7, 8, 9] 0
        (.slice 2 5 (some 2)) (.list [])).2 = .error (.nonPositiveStep 2)) ∧
    ((1 : Int) ≤ 2 → (__setitem__ u8Spec [0, 1, 2, 3, 4, 5, 6, 7, 8, 9] 0
        (.slice 2 5 (some 2)) (.list [])).2 = .ok ()) ∧
    ((2 : Int) ≠ 0 → __getitem__ (α := Nat) [0, 1, 2, 3, 4, 5, 6, 7, 8, 9] 0
        (.slice 5 2 (some 2)) = .error (.emptySlice 5 2)) ∧
    ((2 : Int) ≠ 0 → (__setitem__ u8Spec [0, 1, 2, 3, 4, 5, 6, 7, 8, 9] 0
        (.slice 5 2 (some 2)) (.list [])).2 = .error (.emptySlice 5 2)) :=
  c6_step_policy u8Spec [0, 1, 2, 3, 4, 5, 6, 7, 8, 9] 0 2 5 2 [] (by decide) (by decide)
    (by decide) (by decide) (by decide) (by decide)

theorem rangeStepBy_wrap_pos {a b s p : Int} {len off : Nat}
    (ha : 0 ≤ a) (hb : b ≤ (len : Int)) (hU : len < USIZE)
    (hoff : off + b.toNat ≤ len) (hs : 0 < s) (hp : p ∈ rangeStepBy a b s) :
    wrap (off + castUsize p) = off + p.toNat ∧ off + p.toNat < len := by
  obtain ⟨hap, hpb⟩ := mem_rangeStepBy hs hp
  have hp0 : 0 ≤ p := le_trans ha hap
  have hcast : castUsize p = p.toNat := castUsize_eq_toNat hp0 (by
    simp only [USIZE] at hU ⊢
    omega)
  have hlt : off + p.toNat < len := by omega
  rw [hcast]
  exact ⟨wrap_eq_of_lt (by omega), hlt⟩

theorem nodup_mapped_positions {a b s : Int} {len off : Nat}
    (ha : 0 ≤ a) (hb : b ≤ (len : Int)) (hU : len < USIZE)
    (hoff : off + b.toNat ≤ len) (hs : 0 < s) :
    ((rangeStepBy a b s).map fun p => wrap (off + castUsize p)).Nodup := by
  have hpw := rangeStepBy_pairwise (a := a) (b := b) hs
  have hne : (rangeStepBy a b s).Pairwise
      (fun p q => wrap (off + castUsize p) ≠ wrap (off + castUsize q)) := by
    refine List.Pairwise.imp_of_mem ?_ hpw
    intro p q hpmem hqmem hlt
    obtain ⟨hep, hbp⟩ := rangeStepBy_wrap_pos ha hb hU hoff hs hpmem
    obtain ⟨heq, hbq⟩ := rangeStepBy_wrap_pos ha hb hU hoff hs hqmem
    have hp0 : 0 ≤ p := le_trans ha (mem_rangeStepBy hs hpmem).1
    rw [hep, heq]
    omega
  exact List.Pairwise.map _ (fun p q h => h) hne

/-- C7: a range `set` zips the resolved absolute positions, in increasing
order, pairwise with the supplied values: it succeeds, the buffer keeps
its length, position `offset + ps[k]` holds the `k`-th converted value
for every `k` below `min(#positions, #values)` (a shorter value sequence
writes only that many positions, extra values are ignored), and every
position outside the written ones keeps its previous value. -/
theorem c7_range_set_zips (spec : ElemSpec α) (buf : List α) (off : Nat) (a b : Int)
    (st : Option Int) (vals : List PyVal) (cs : List α)
    (ha : 0 ≤ a) (hab : a < b) (hb : b ≤ (buf.length : Int))
    (hlenM : (buf.length : Int) ≤ ISIZE_MAX)
    (hs1 : 1 ≤ st.getD 1) (hs2 : st.getD 1 ≤ ISIZE_MAX)
    (hoff : off + b.toNat ≤ buf.length)
    (hconv : List.Forall₂ (fun v c => spec.extract v = some c)
      (vals.take (rangeStepBy a b (st.getD 1)).length) cs) :
    (__setitem__ spec buf off (.slice a b st) (.list vals)).2 = .ok () ∧
    (__setitem__ spec buf off (.slice a b st) (.list vals)).1.length = buf.length ∧
    (∀ (k : Nat) (p : Int) (c : α),
      (rangeStepBy a b (st.getD 1))[k]? = some p → cs[k]? = some c →
        (__setitem__ spec buf off (.slice a b st) (.list vals)).1[off + p.toNat]?
          = some c) ∧
    (∀ j : Nat,
      (∀ p ∈ (rangeStepBy a b (st.getD 1)).take cs.length, j ≠ off + p.toNat) →
        (__setitem__ spec buf off (.slice a b st) (.list vals)).1[j]? = buf[j]?) := by
  have hU : buf.length < USIZE := by
    have h1 := ISIZE_MAX_lt_USIZE
    simp only [USIZE] at *
    omega
  have hspos : 0 < st.getD 1 := by omega
  have hbound : ∀ p ∈ rangeStepBy a b (st.getD 1),
      wrap (off + castUsize p) = off + p.toNat ∧ off + p.toNat < buf.length :=
    fun p hp => rangeStepBy_wrap_pos ha hb hU hoff hspos hp
  have hset : __setitem__ spec buf off (.slice a b st) (.list vals)
      = (applyWrites buf
          (((rangeStepBy a b (st.getD 1)).map fun p => wrap (off + castUsize p)).zip cs),
         .ok ()) := by
    rw [setitem_slice_reduces spec buf off a b st vals ha hab hb hlenM hs1 hs2]
    refine writeLoop_ok spec off _ vals cs buf hconv ?_
    intro p hp
    obtain ⟨h1, h2⟩ := hbound p (List.mem_of_mem_take hp)
    rw [h1]
    exact h2
  rw [hset]
  refine ⟨rfl, length_applyWrites _ _, ?_, ?_⟩
  · intro k p c hpk hck
    have hpmem : p ∈ rangeStepBy a b (st.getD 1) := List.getElem?_mem hpk
    obtain ⟨h1, h2⟩ := hbound p hpmem
    have hzip : (((rangeStepBy a b (st.getD 1)).map
          fun q => wrap (off + castUsize q)).zip cs)[k]?
        = some (wrap (off + castUsize p), c) := by
      rw [List.getElem?_zip_eq_some]
      constructor
      · rw [List.getElem?_map, hpk]
        rfl
      · exact hck
    have hmem := List.getElem?_mem hzip
    rw [← h1]
    refine getElem?_applyWrites_of_mem _ _ _ _ ?_ hmem ?_
    · rw [map_fst_zip_eq_take]
      exact List.Nodup.sublist (List.take_sublist _ _)
        (nodup_mapped_positions ha hb hU hoff hspos)
    · rw [h1]
      exact h2
  · intro j hj
    refine getElem?_applyWrites_of_notMem _ _ _ ?_
    rw [map_fst_zip_eq_take, ← List.map_take]
    intro hcontra
    obtain ⟨p, hpmem, hpeq⟩ := List.mem_map.1 hcontra
    obtain ⟨h1, h2⟩ := hbound p (List.mem_of_mem_take hpmem)
    have hjp := hj p hpmem
    omega

/-- C7 (witness at a concrete input): `set((0,3), [9,9])` on a length-10
view writes positions 0 and 1 and leaves everything else unchanged. -/
theorem c7_witness :
    (__setitem__ u8Spec [0, 1, 2, 3, 4, 5, 6, 7, 8, 9] 0 (.slice 0 3 none)
        (.list [.int 9, .int 9])).2 = .ok () ∧
    (__setitem__ u8Spec [0, 1, 2, 3, 4, 5, 6, 7, 8, 9] 0 (.slice 0 3 none)
        (.list [.int 9, .int 9])).1.length = 10 ∧
    (∀ (k : Nat) (p : Int) (c : Nat),
      (rangeStepBy 0 3 1)[k]? = some p → ([9, 9] : List Nat)[k]? = some c →
        (__setitem__ u8Spec [0, 1, 2, 3, 4, 5, 6, 7, 8, 9] 0 (.slice 0 3 none)
          (.list [.int 9, .int 9])).1[0 + p.toNat]? = some c) ∧
    (∀ j : Nat,
      (∀ p ∈ (rangeStepBy 0 3 1).take 2, j ≠ 0 + p.toNat) →
        (__setitem__ u8Spec [0, 1, 2, 3, 4, 5, 6, 7, 8, 9] 0 (.slice 0 3 none)
          (.list [.int 9, .int 9])).1[j]?
          = ([0, 1, 2, 3, 4, 5, 6, 7, 8, 9] : List Nat)[j]?) :=
  c7_range_set_zips u8Spec [0, 1, 2, 3, 4, 5, 6, 7, 8, 9] 0 0 3 none
    [.int 9, .int 9] [9, 9] (by decide) (by decide) (by decide) (by decide)
    (by decide) (by decide) (by decide)
    (show List.Forall₂ _ [PyVal.int 9, PyVal.int 9] [9, 9] from
      List.Forall₂.cons rfl (List.Forall₂.cons rfl List.Forall₂.nil))

/-- C9: torn write on conversion failure: if the first `k` supplied values
convert and the `k`-th (0-based) fails, the range `set` returns the
conversion error, the first `k` resolved positions (in ascending order)
hold their converted values, and every other position is untouched. -/
theorem c9_torn_write_on_conversion_failure (spec : ElemSpec α) (buf : List α)
    (off : Nat) (a b : Int) (st : Option Int) (vals : List PyVal) (cs : List α)
    (vbad : PyVal)
    (ha : 0 ≤ a) (hab : a < b) (hb : b ≤ (buf.length : Int))
    (hlenM : (buf.length : Int) ≤ ISIZE_MAX)
    (hs1 : 1 ≤ st.getD 1) (hs2 : st.getD 1 ≤ ISIZE_MAX)
    (hoff : off + b.toNat ≤ buf.length)
    (hconv : List.Forall₂ (fun v c => spec.extract v = some c) (vals.take cs.length) cs)
    (hbad : vals[cs.length]? = some vbad) (hbadc : spec.extract vbad = none)
    (hk : cs.length < (rangeStepBy a b (st.getD 1)).length) :
    (__setitem__ spec buf off (.slice a b st) (.list vals)).2 = .error .typeMismatch ∧
    (__setitem__ spec buf off (.slice a b st) (.list vals)).1.length = buf.length ∧
    (∀ (k : Nat) (p : Int) (c : α),
      (rangeStepBy a b (st.getD 1))[k]? = some p → cs[k]? = some c →
        (__setitem__ spec buf off (.slice a b st) (.list vals)).1[off + p.toNat]?
          = some c) ∧
    (∀ j : Nat,
      (∀ p ∈ (rangeStepBy a b (st.getD 1)).take cs.length, j ≠ off + p.toNat) →
        (__setitem__ spec buf off (.slice a b st) (.list vals)).1[j]? = buf[j]?) := by
  have hU : buf.length < USIZE := by
    have h1 := ISIZE_MAX_lt_USIZE
    simp only [USIZE] at *
    omega
  have hspos : 0 < st.getD 1 := by omega
  have hbound : ∀ p ∈ rangeStepBy a b (st.getD 1),
      wrap (off + castUsize p) = off + p.toNat ∧ off + p.toNat < buf.length :=
    fun p hp => rangeStepBy_wrap_pos ha hb hU hoff hspos hp
  have hset : __setitem__ spec buf off (.slice a b st) (.list vals)
      = (applyWrites buf
          (((rangeStepBy a b (st.getD 1)).map fun p => wrap (off + castUsize p)).zip cs),
         .error .typeMismatch) := by
    rw [setitem_slice_reduces spec buf off a b st vals ha hab hb hlenM hs1 hs2]
    refine writeLoop_fail spec off _ vals cs buf vbad hconv hbad hbadc hk ?_
    intro p hp
    obtain ⟨h1, h2⟩ := hbound p (List.mem_of_mem_take hp)
    rw [h1]
    exact h2
  rw [hset]
  refine ⟨rfl, length_applyWrites _ _, ?_, ?_⟩
  · intro k p c hpk hck
    have hpmem : p ∈ rangeStepBy a b (st.getD 1) := List.getElem?_mem hpk
    obtain ⟨h1, h2⟩ := hbound p hpmem
    have hzip : (((rangeStepBy a b (st.getD 1)).map
          fun q => wrap (off + castUsize q)).zip cs)[k]?
        = some (wrap (off + castUsize p), c) := by
      rw [List.getElem?_zip_eq_some]
      constructor
      · rw [List.getElem?_map, hpk]
        rfl
      · exact hck
    have hmem := List.getElem?_mem hzip
    rw [← h1]
    refine getElem?_applyWrites_of_mem _ _ _ _ ?_ hmem ?_
    · rw [map_fst_zip_eq_take]
      exact List.Nodup.sublist (List.take_sublist _ _)
        (nodup_mapped_positions ha hb hU hoff hspos)
    · rw [h1]
      exact h2
  · intro j hj
    refine getElem?_applyWrites_of_notMem _ _ _ ?_
    rw [map_fst_zip_eq_take, ← List.map_take]
    intro hcontra
    obtain ⟨p, hpmem, hpeq⟩ := List.mem_map.1 hcontra
    obtain ⟨h1, h2⟩ := hbound p (List.mem_of_mem_take hpmem)
    have hjp := hj p hpmem
    omega

/-- C9 (witness at a concrete input): on `[0..9]`, `set((0,5),
[1, 2, float, 3])` stores 1 and 2 at positions 0 and 1, fails converting
the float, and leaves positions 2..9 untouched. -/
theorem c9_witness :
    (__setitem__ u8Spec [0, 1, 2, 3, 4, 5, 6, 7, 8, 9] 0 (.slice 0 5 none)
        (.list [.int 1, .int 2, .float 0, .int 3])).2 = .error .typeMismatch ∧
    (__setitem__ u8Spec [0, 1, 2, 3, 4, 5, 6, 7, 8, 9] 0 (.slice 0 5 none)
        (.list [.int 1, .int 2, .float 0, .int 3])).1.length = 10 ∧
    (∀ (k : Nat) (p : Int) (c : Nat),
      (rangeStepBy 0 5 1)[k]? = some p → ([1, 2] : List Nat)[k]? = some c →
        (__setitem__ u8Spec [0, 1, 2, 3, 4, 5, 6, 7, 8, 9] 0 (.slice 0 5 none)
          (.list [.int 1, .int 2, .float 0, .int 3])).1[0 + p.toNat]? = some c) ∧
    (∀ j : Nat,
      (∀ p ∈ (rangeStepBy 0 5 1).take 2, j ≠ 0 + p.toNat) →
        (__setitem__ u8Spec [0, 1, 2, 3, 4, 5, 6, 7, 8, 9] 0 (.slice 0 5 none)
          (.list [.int 1, .int 2, .float 0, .int 3])).1[j]?
          = ([0, 1, 2, 3, 4, 5, 6, 7, 8, 9] : List Nat)[j]?) :=
  c9_torn_write_on_conversion_failure u8Spec [0, 1, 2, 3, 4, 5, 6, 7, 8, 9] 0 0 5 none
    [.int 1, .int 2, .float 0, .int 3] [1, 2] (.float 0) (by decide) (by decide)
    (by decide) (by decide) (by decide) (by decide) (by decide)
    (show List.Forall₂ _ [PyVal.int 1, PyVal.int 2] [1, 2] from
      List.Forall₂.cons rfl (List.Forall₂.cons rfl List.Forall₂.nil))
    rfl rfl (by decide)

/-- C10: the single-index write path accepts only Python `int` values:
for every element type, if the supplied value is not an `int` object
(e.g. a Python float), the `(integer, integer)` shape match fails and
`__setitem__` returns the generic shape RuntimeError with the buffer
unchanged — while on `Float64Array` the very same float value is accepted
by the range-write path, which converts it with `extract::<f64>` and
stores it successfully. -/
theorem c10_single_set_requires_pyint (spec : ElemSpec α) (buf : List α) (off : Nat)
    (i : Int) (value : PyVal) (hv : ∀ n : Int, value ≠ .int n)
    (fbuf : List F64) (off2 : Nat) (a b : Int) (t : Nat)
    (ha : 0 ≤ a) (hab : a < b) (hb : b ≤ (fbuf.length : Int))
    (hlenM : (fbuf.length : Int) ≤ ISIZE_MAX) (hoff : off2 + b.toNat ≤ fbuf.length) :
    __setitem__ spec buf off (.val (.int i)) value = (buf, .error .shapeError) ∧
    (__setitem__ f64Spec fbuf off2 (.slice a b none) (.list [.float t])).2 = .ok () := by
  constructor
  · have hnone : spec.extractPyInt value = none := by
      cases value with
      | int n => exact absurd rfl (hv n)
      | float u => rfl
      | list l => rfl
    cases h1 : extractIsize (.int i) with
    | none => simp [__setitem__, h1, hnone]
    | some j => simp [__setitem__, h1, hnone]
  · have hU : fbuf.length < USIZE := by
      have h1 := ISIZE_MAX_lt_USIZE
      simp only [USIZE] at *
      omega
    have hspos : 0 < (none : Option Int).getD 1 := by simp
    rw [setitem_slice_reduces f64Spec fbuf off2 a b none [.float t] ha hab hb hlenM
      (by simp) (by norm_num [ISIZE_MAX])]
    have hlen1 : 1 ≤ (rangeStepBy a b ((none : Option Int).getD 1)).length := by
      rw [length_rangeStepBy hspos hab]
      exact Nat.le_add_left 1 _
    rw [writeLoop_ok f64Spec off2 _ [.float t] [F64.ofFloat t] fbuf ?_ ?_]
    · rw [List.take_of_length_le (by simpa using hlen1)]
      exact List.Forall₂.cons rfl List.Forall₂.nil
    · intro p hp
      obtain ⟨h1, h2⟩ := rangeStepBy_wrap_pos ha hb hU hoff hspos
        (List.mem_of_mem_take hp)
      rw [h1]
      exact h2

/-- C10 (witness at a concrete input). -/
theorem c10_witness :
    __setitem__ u8Spec [0, 1, 2] 0 (.val (.int 1)) (.float 3)
      = ([0, 1, 2], .error .shapeError) ∧
    (__setitem__ f64Spec [.ofInt 0, .ofInt 0, .ofInt 0, .ofInt 0] 1 (.slice 0 2 none)
        (.list [.float 3])).2 = .ok () :=
  c10_single_set_requires_pyint u8Spec [0, 1, 2] 0 1 (.float 3)
    (fun _ h => nomatch h) [.ofInt 0, .ofInt 0, .ofInt 0, .ofInt 0] 1 0 2 3
    (by decide) (by decide) (by decide) (by decide) (by decide)

end MemoryViews
